import Mathlib

/-!
Shallow embedding of the `rolling` log-file writer (files `rotation.go` and
`rolling.go`) and proofs about its rotation policy, boundary-advance
protocol, filename construction and retention pruning.

Modelling conventions:

* A Go `time.Time` is embedded as `GoTime`: the epoch second (`sec`, the
  value `Unix()` returns; Go stores instants as a second count plus a
  nanosecond count in `[0, 1e9)`) and the nanosecond count (`nano`).
* A Go `time.Location` is embedded as a fixed UTC offset in seconds
  (`off : Int`).  The library defaults to `time.UTC` (`off = 0`); in a
  fixed-offset location every calendar day spans 86400 seconds, so
  `AddDate(0, 0, 1)` adds 86400 seconds and `time.Date(y, m, d, h, min,
  0, 0, loc)` floors the local second count to the enclosing minute/hour.
  Integer division/modulus below are Euclidean (`Int.ediv`/`Int.emod`),
  which is exactly "floor to the start of the unit" for positive units.
* Filesystem state is passed explicitly: a directory listing is a
  `List DirEntry`, deletion is returning the list of removed names, and
  the result of `times.Stat`+`HasBirthTime` is an `Option GoTime`
  (`none` covers both a stat error and an absent birth time — the code
  skips the entry in either case).
* Fallible Go code (the `nil`-pointer dereference that `AdvanceDate`
  would perform when `NextDate` returns `nil`) is embedded as `Option`:
  `none` models the panic.
* `date.Format(s.dateFormat)` is kept opaque: functions receive the
  already-formatted date string (or a formatting function
  `fmt : GoTime → String`) as a parameter.
-/

namespace Rolling

/-- Embedding of a Go `time.Time` instant: epoch seconds (what `Unix()`
returns) plus the nanosecond component. -/
structure GoTime where
  sec : Int
  nano : Int
  deriving DecidableEq, Repr

/-- Embedding of Go `a.Before(b)`: lexicographic comparison of the second
and nanosecond components. -/
def GoTime.before (a b : GoTime) : Bool :=
  decide (a.sec < b.sec) || (decide (a.sec = b.sec) && decide (a.nano < b.nano))

/-- The rotation kinds of `rotation.go`: the package exports exactly the
values `Never`, `Minutely`, `Hourly`, `Daily` (internal tags 0..3). -/
inductive RotationKind where
  | Never
  | Minutely
  | Hourly
  | Daily
  deriving DecidableEq, Repr

/-- Flooring an instant to the start of its enclosing `unit`-second block
of local civil time, zeroing the nanoseconds.  This is what
`time.Date(d.Year(), d.Month(), d.Day(), d.Hour(), [d.Minute(),] 0, 0,
d.Location())` computes in a fixed-offset location for `unit = 60`
(minute) and `unit = 3600` (hour). -/
def floorToUnit (off unit : Int) (t : GoTime) : GoTime :=
  ⟨t.sec - (t.sec + off) % unit, 0⟩

/-- Embedding of `rotation.roundDate` (`rotation.go` lines 43-54): minute
kind zeroes seconds and sub-seconds, hour and daily kinds zero minutes,
seconds and sub-seconds.  The `Never` branch panics in the source
(`"unreachable"`); `NextDate` never applies `roundDate` to `Never`, and we
map that branch to the identity. -/
def roundDate (k : RotationKind) (off : Int) (d : GoTime) : GoTime :=
  match k with
  | .Minutely => floorToUnit off 60 d
  | .Hourly => floorToUnit off 3600 d
  | .Daily => floorToUnit off 3600 d
  | .Never => d

/-- Embedding of `rotation.NextDate` (`rotation.go` lines 26-41): add one
minute / one hour / one calendar day (86400 s in a fixed-offset location)
and round; `nil` for `Never`. -/
def NextDate (k : RotationKind) (off : Int) (current : GoTime) : Option GoTime :=
  match k with
  | .Never => none
  | .Minutely => some (roundDate .Minutely off ⟨current.sec + 60, current.nano⟩)
  | .Hourly => some (roundDate .Hourly off ⟨current.sec + 3600, current.nano⟩)
  | .Daily => some (roundDate .Daily off ⟨current.sec + 86400, current.nano⟩)

/-- Second-of-minute component of an instant in the location with offset
`off` (what `t.Second()` returns in Go). -/
def secondOfMinute (off : Int) (t : GoTime) : Int :=
  (t.sec + off) % 60

/-- Minute-of-hour component of an instant in the location with offset
`off` (what `t.Minute()` returns in Go). -/
def minuteOfHour (off : Int) (t : GoTime) : Int :=
  ((t.sec + off) % 3600) / 60

/-- Hour-of-day component of an instant in the location with offset `off`
(what `t.Hour()` returns in Go). -/
def hourOfDay (off : Int) (t : GoTime) : Int :=
  ((t.sec + off) % 86400) / 3600

/-- Calendar-day number (days since the epoch) of an instant in the
location with offset `off`. -/
def dayNumber (off : Int) (t : GoTime) : Int :=
  (t.sec + off) / 86400

/-- Embedding of the `state` struct of `rolling.go` (lines 95-105).
`namePre`/`nameSuf` are `logFilenamePrefix`/`logFilenameSuffix`, `off` is
the fixed offset of `timeLocation`, `nextDate` is the atomically accessed
`int64` boundary (epoch seconds; `0` means "no boundary"). -/
structure State where
  namePre : String
  nameSuf : String
  maxFiles : Nat
  rotation : RotationKind
  off : Int
  nextDate : Int
  deriving DecidableEq, Repr

/-- Embedding of the `Config` struct (`rolling.go` lines 22-30), already
normalized: the directory and date-format defaulting of `newState` does
not affect the verified behavior, and the location default `time.UTC` is
`off = 0`. -/
structure Config where
  rotation : RotationKind
  namePre : String
  nameSuf : String
  off : Int
  maxFiles : Nat
  deriving DecidableEq, Repr

/-- Embedding of `newState` (`rolling.go` lines 107-140): the boundary is
initialized from `NextDate` at the construction instant, and stays `0`
when `NextDate` returns `nil` (kind `Never`). -/
def newState (c : Config) (now : GoTime) : State :=
  { namePre := c.namePre
    nameSuf := c.nameSuf
    maxFiles := c.maxFiles
    rotation := c.rotation
    off := c.off
    nextDate :=
      match NextDate c.rotation c.off now with
      | some d => d.sec
      | none => 0 }

/-- Embedding of `state.shouldRollover` (`rolling.go` lines 213-225): a
lock-free read of `nextDate`; returns `nil` when the boundary is `0`,
otherwise returns `time.Unix(nextDate, 0)` exactly when
`date.Unix() >= nextDate`. -/
def shouldRollover (s : State) (date : GoTime) : Option GoTime :=
  if s.nextDate = 0 then none
  else if s.nextDate ≤ date.sec then some ⟨s.nextDate, 0⟩
  else none

/-- Embedding of `state.AdvanceDate` (`rolling.go` lines 227-230): compute
the new boundary from `now` and compare-and-swap it over `current.Unix()`.
The source dereferences `NextDate`'s result without a `nil` check; `none`
models the resulting panic. -/
def AdvanceDate (s : State) (now current : GoTime) : Option (Bool × State) :=
  match NextDate s.rotation s.off now with
  | none => none
  | some nd =>
    if s.nextDate = current.sec then some (true, { s with nextDate := nd.sec })
    else some (false, s)

/-- Boundary-handling portion of `RollingFileAppender.Write` (`rolling.go`
lines 75-81) viewed as a transition on `State`: check `shouldRollover`,
and on a crossed boundary run `AdvanceDate`; `none` models the panic
inside `AdvanceDate`. -/
def writeStep (s : State) (now : GoTime) : Option State :=
  match shouldRollover s now with
  | none => some s
  | some current =>
    match AdvanceDate s now current with
    | none => none
    | some (_, s2) => some s2

/-- States reachable from construction (`New`/`newState`) via the public
write operation.  Every instant fed to the system comes from
`time.Now()`, which in any actual execution is strictly after the Unix
epoch; the hypothesis `0 < now.sec` records that. -/
inductive Reachable (c : Config) : State → Prop where
  | init (now : GoTime) (h : 0 < now.sec) : Reachable c (newState c now)
  | step (s s2 : State) (now : GoTime) (h : 0 < now.sec) (hs : Reachable c s)
      (hw : writeStep s now = some s2) : Reachable c s2

/-- Embedding of one `os.DirEntry` of the log directory, together with
what `times.Stat` reports for it: `birth = none` covers both a failed
stat and `HasBirthTime() == false` — `prune_old_logs` skips the entry in
either case. -/
structure DirEntry where
  name : String
  isDir : Bool
  birth : Option GoTime
  deriving DecidableEq, Repr

/-- The filename filter of `prune_old_logs` (`rolling.go` lines 168-175):
an entry is kept unless a non-empty configured name head fails
`strings.HasPrefix` or a non-empty configured name tail fails
`strings.HasSuffix`. -/
def matchesFilter (pre suf name : String) : Bool :=
  (decide (pre.length = 0) || pre.data.isPrefixOf name.data) &&
  (decide (suf.length = 0) || suf.data.isSuffixOf name.data)

/-- The survivor list built by the collection loop of `prune_old_logs`
(`rolling.go` lines 162-189): non-directory entries matching the filter
whose birth time is retrievable, as `(name, birth)` pairs.  The source
stores `path.Join(logDirectory, name)`; the directory component is the
same for every entry and is dropped here. -/
def survivors (pre suf : String) (entries : List DirEntry) : List (String × GoTime) :=
  entries.filterMap fun e =>
    if e.isDir then none
    else if matchesFilter pre suf e.name then e.birth.map fun b => (e.name, b)
    else none

/-- Comparison used to sort survivors ascending by birth time:
`sort.Slice` with `files[i].Ctime.Before(files[j].Ctime)` produces a list
that is non-decreasing with respect to `¬ b.before a`. -/
def birthLE (a b : String × GoTime) : Bool :=
  ! GoTime.before b.2 a.2

/-- Insertion step of the ascending-by-birth sort. -/
def insertByBirth (x : String × GoTime) : List (String × GoTime) → List (String × GoTime)
  | [] => [x]
  | y :: ys => if birthLE x y then x :: y :: ys else y :: insertByBirth x ys

/-- Ascending-by-birth sort modelling the `sort.Slice` call of
`prune_old_logs` (`rolling.go` lines 195-197). -/
def sortByBirth : List (String × GoTime) → List (String × GoTime)
  | [] => []
  | x :: xs => insertByBirth x (sortByBirth xs)

/-- Embedding of `state.prune_old_logs` (`rolling.go` lines 146-205),
returning the names the deletion loop removes: nothing when `maxFiles`
is `0` or fewer than `maxFiles` survivors exist; otherwise the first
`len - maxFiles + 1` entries of the ascending sort.  Failures of the
individual `os.Remove` calls are only logged in the source and do not
change which names the loop targets. -/
def prune_old_logs (maxFiles : Nat) (pre suf : String) (entries : List DirEntry) : List String :=
  if maxFiles = 0 then []
  else
    let files := survivors pre suf entries
    if files.length < maxFiles then []
    else ((sortByBirth files).take (files.length - maxFiles + 1)).map Prod.fst

/-- Embedding of `state.joinDate` (`rolling.go` lines 232-260).
`dateStr` stands for the opaque `date.Format(s.dateFormat)` result.  Note
the fall-through of the Go `switch`: when every guarded branch declines
(both name parts empty — for `Never` as well), the function returns
`dateStr`. -/
def joinDate (k : RotationKind) (pre suf dateStr : String) : String :=
  match k with
  | .Never =>
    if 0 < pre.length ∧ 0 < suf.length then pre ++ suf
    else if 0 < pre.length then pre
    else if 0 < suf.length then suf
    else dateStr
  | _ =>
    if 0 < pre.length ∧ 0 < suf.length then pre ++ dateStr ++ suf
    else if 0 < pre.length then pre ++ dateStr
    else if 0 < suf.length then dateStr ++ suf
    else dateStr

/-- Embedding of the `RollingFileAppender`: the shared `state` plus the
currently installed file handle, identified by the name it was opened
under (`hfile`).  The `sync.RWMutex` is represented by handle swaps being
atomic steps. -/
structure Writer where
  st : State
  hfile : String
  deriving DecidableEq, Repr

/-- Embedding of `RollingFileAppender.refreshFile` (`rolling.go` lines
52-73): prune when retention is configured, then attempt to create the
file named for `now` (`createOk` is whether `os.OpenFile` succeeds); on
failure the error is only logged and the old handle stays installed; on
success the old handle is closed and the new one installed.  Returns the
updated writer and the pruned names. -/
def refreshFile (fmt : GoTime → String) (w : Writer) (now : GoTime)
    (entries : List DirEntry) (createOk : Bool) : Writer × List String :=
  let deleted :=
    if 0 < w.st.maxFiles then prune_old_logs w.st.maxFiles w.st.namePre w.st.nameSuf entries
    else []
  if createOk then
    ({ w with hfile := joinDate w.st.rotation w.st.namePre w.st.nameSuf (fmt now) }, deleted)
  else (w, deleted)

/-- Embedding of `RollingFileAppender.Write` (`rolling.go` lines 75-87)
for a single caller: the boundary check, the compare-and-swap, the
conditional `refreshFile`, then the write to the installed handle.  The
underlying `os.File.Write` is modelled as succeeding with byte count
`p.length`; the returned list is the set of names pruning deleted, and
`none` models the panic inside `AdvanceDate`. -/
def Write (fmt : GoTime → String) (w : Writer) (now : GoTime)
    (entries : List DirEntry) (createOk : Bool) (p : List UInt8) :
    Option (Writer × List String × Nat) :=
  match shouldRollover w.st now with
  | none => some (w, [], p.length)
  | some current =>
    match AdvanceDate w.st now current with
    | none => none
    | some (won, st2) =>
      let w2 : Writer := { w with st := st2 }
      if won then
        let r := refreshFile fmt w2 now entries createOk
        some (r.1, r.2, p.length)
      else some (w2, [], p.length)

/-- Race model for concurrent callers that all observed the same crossed
boundary `current` from `shouldRollover`: each caller then executes the
rotation branch of `Write` (`AdvanceDate`, and `refreshFile` when it
won).  The compare-and-swap is the linearization point, so an arbitrary
interleaving is some sequential order of these steps; the handle swap
itself is atomic under the exclusive lock.  Returns the final writer and
how many callers performed `refreshFile` (file creation and pruning). -/
def runRace (fmt : GoTime → String) (current : GoTime) (entries : List DirEntry)
    (createOk : Bool) : Writer → List GoTime → Option (Writer × Nat)
  | w, [] => some (w, 0)
  | w, now :: rest =>
    match AdvanceDate w.st now current with
    | none => none
    | some (won, st2) =>
      let w2 : Writer := { w with st := st2 }
      if won then
        match runRace fmt current entries createOk (refreshFile fmt w2 now entries createOk).1 rest with
        | none => none
        | some (wf, cnt) => some (wf, cnt + 1)
      else
        match runRace fmt current entries createOk w2 rest with
        | none => none
        | some (wf, cnt) => some (wf, cnt)

/-- Sample configuration used by concrete witnesses: minutely rotation in
UTC with name parts `"app_"`/`".log"` and retention 2. -/
def cfg0 : Config := ⟨.Minutely, "app_", ".log", 0, 2⟩

/-- Sample opaque date formatter used by concrete witnesses and
counterexamples. -/
def fmt0 : GoTime → String := fun _ => "D"

/-! Helper lemmas shared by several claims. -/

/-- For every kind other than `Never`, `NextDate` yields a boundary whose
second count strictly exceeds the input's. -/
theorem nextDate_some_of_ne (k : RotationKind) (hk : k ≠ .Never) (off : Int) (t : GoTime) :
    ∃ b, NextDate k off t = some b ∧ t.sec < b.sec := by
  cases k
  case Never => exact absurd rfl hk
  case Minutely =>
    refine ⟨_, rfl, ?_⟩
    simp only [roundDate, floorToUnit]
    omega
  case Hourly =>
    refine ⟨_, rfl, ?_⟩
    simp only [roundDate, floorToUnit]
    omega
  case Daily =>
    refine ⟨_, rfl, ?_⟩
    simp only [roundDate, floorToUnit]
    omega

/-- Unfolding of a successful `shouldRollover`: the returned instant is
`time.Unix(nextDate, 0)`, the stored boundary is non-zero, and `date` is
at or past it. -/
theorem shouldRollover_some_elim (s : State) (date current : GoTime)
    (h : shouldRollover s date = some current) :
    current = ⟨s.nextDate, 0⟩ ∧ s.nextDate ≠ 0 ∧ s.nextDate ≤ date.sec := by
  by_cases h0 : s.nextDate = 0
  · simp [shouldRollover, h0] at h
  · by_cases h1 : s.nextDate ≤ date.sec
    · simp [shouldRollover, h0, h1] at h
      exact ⟨h.symm, h0, h1⟩
    · simp [shouldRollover, h0, h1] at h

/-- Invariant of reachable states: the stored boundary is zero with kind
`Never`, or strictly positive with a rotating kind. -/
theorem reachable_invariant (c : Config) (s : State) (h : Reachable c s) :
    (s.nextDate = 0 ∧ s.rotation = .Never) ∨ (0 < s.nextDate ∧ s.rotation ≠ .Never) := by
  induction h with
  | init now hpos =>
    by_cases hk : c.rotation = .Never
    · left
      constructor
      · have hnd : (newState c now).nextDate =
            (match NextDate c.rotation c.off now with
              | some d => d.sec
              | none => 0) := rfl
        rw [hnd, hk]
        rfl
      · exact hk
    · right
      obtain ⟨b, hb, hlt⟩ := nextDate_some_of_ne c.rotation hk c.off now
      constructor
      · have hnd : (newState c now).nextDate =
            (match NextDate c.rotation c.off now with
              | some d => d.sec
              | none => 0) := rfl
        rw [hnd, hb]
        show 0 < b.sec
        omega
      · exact hk
  | step s s2 now hpos hs hw ih =>
    unfold writeStep at hw
    rcases hroll : shouldRollover s now with _ | current
    · rw [hroll] at hw
      simp only [Option.some.injEq] at hw
      subst hw
      exact ih
    · rw [hroll] at hw
      obtain ⟨hcur, hnz, hle⟩ := shouldRollover_some_elim s now current hroll
      rcases ih with ⟨h0, _⟩ | ⟨hpos2, hk⟩
      · exact absurd h0 hnz
      obtain ⟨b, hb, hlt⟩ := nextDate_some_of_ne s.rotation hk s.off now
      unfold AdvanceDate at hw
      rw [hb] at hw
      by_cases hc : s.nextDate = current.sec
      · simp only [hc, if_true, Option.some.injEq] at hw
        subst hw
        right
        exact ⟨by simp only []; omega, hk⟩
      · simp only [hc, if_false, Option.some.injEq] at hw
        subst hw
        right
        exact ⟨hpos2, hk⟩

/-- C2: for every rotation kind other than `Never` and every instant `t`,
`NextDate` returns a boundary strictly after `t` that is exactly aligned
to the kind's rounding unit: seconds and sub-seconds zero for `Minutely`;
minutes, seconds and sub-seconds zero for `Hourly` (and for `Daily`,
whose rounding unit is likewise the hour). -/
theorem claim2_nextDate_after_aligned (off : Int) (t : GoTime) :
    (∃ b, NextDate .Minutely off t = some b ∧ GoTime.before t b = true ∧
        secondOfMinute off b = 0 ∧ b.nano = 0) ∧
    (∃ b, NextDate .Hourly off t = some b ∧ GoTime.before t b = true ∧
        minuteOfHour off b = 0 ∧ secondOfMinute off b = 0 ∧ b.nano = 0) ∧
    (∃ b, NextDate .Daily off t = some b ∧ GoTime.before t b = true ∧
        minuteOfHour off b = 0 ∧ secondOfMinute off b = 0 ∧ b.nano = 0) := by
  refine ⟨⟨_, rfl, ?_, ?_, rfl⟩, ⟨_, rfl, ?_, ?_, ?_, rfl⟩, ⟨_, rfl, ?_, ?_, ?_, rfl⟩⟩ <;>
    simp only [GoTime.before, roundDate, floorToUnit, secondOfMinute, minuteOfHour,
      Bool.or_eq_true, Bool.and_eq_true, decide_eq_true_eq] <;>
    omega

/-- C3: `NextDate` for `Daily` moves the instant exactly one calendar day
forward, zeroing minutes, seconds and sub-seconds, while preserving the
hour-of-day (it is not floored to midnight). -/
theorem claim3_daily_hour_preserved (off : Int) (t : GoTime) :
    ∃ b, NextDate .Daily off t = some b ∧
      dayNumber off b = dayNumber off t + 1 ∧
      hourOfDay off b = hourOfDay off t ∧
      minuteOfHour off b = 0 ∧
      secondOfMinute off b = 0 ∧
      b.nano = 0 := by
  refine ⟨_, rfl, ?_, ?_, ?_, ?_, rfl⟩ <;>
    simp only [roundDate, floorToUnit, dayNumber, hourOfDay, minuteOfHour, secondOfMinute] <;>
    omega

/-- C4: in every reachable state, `shouldRollover` reads the stored
boundary without modifying anything (it is a pure function of the state)
and returns exactly `time.Unix(nextDate, 0)` when `now` is at or past the
boundary and `none` otherwise; for kind `Never` it returns `none` for
every instant. -/
theorem claim4_shouldRollover_spec (c : Config) (s : State) (hr : Reachable c s) :
    (s.rotation = .Never → ∀ now, shouldRollover s now = none) ∧
    (s.rotation ≠ .Never → ∀ now,
        shouldRollover s now = if s.nextDate ≤ now.sec then some ⟨s.nextDate, 0⟩ else none) := by
  rcases reachable_invariant c s hr with ⟨h0, hk⟩ | ⟨hpos, hk⟩
  · refine ⟨fun _ now => by simp [shouldRollover, h0], fun hne => absurd hk hne⟩
  · refine ⟨fun he => absurd he hk, fun _ now => ?_⟩
    have hnz : ¬ s.nextDate = 0 := by omega
    simp [shouldRollover, hnz]

/-- Closed instance of C4: from the freshly constructed minutely state
(boundary 120) the boundary is reported at instant 150. -/
theorem claim4_witness :
    shouldRollover (newState cfg0 ⟨100, 0⟩) ⟨150, 0⟩ = some ⟨120, 0⟩ := by
  have h := (claim4_shouldRollover_spec cfg0 (newState cfg0 ⟨100, 0⟩)
      (Reachable.init ⟨100, 0⟩ (by decide))).2 (by decide) ⟨150, 0⟩
  rw [h]
  decide

/-- C5: `AdvanceDate` replaces the stored boundary by `NextDate`'s value
for `now` exactly when it still equals the supplied previous boundary,
returns `true` exactly when this call performed the replacement, and
leaves the state unchanged when it returns `false`. -/
theorem claim5_advanceDate_cas (s : State) (now current nd : GoTime)
    (h : NextDate s.rotation s.off now = some nd) :
    ∃ won s2, AdvanceDate s now current = some (won, s2) ∧
      (won = true ↔ s.nextDate = current.sec) ∧
      (won = true → s2 = { s with nextDate := nd.sec }) ∧
      (won = false → s2 = s) := by
  by_cases hc : s.nextDate = current.sec
  · exact ⟨true, _, by simp [AdvanceDate, h, hc], by simp [hc], fun _ => rfl, by simp⟩
  · exact ⟨false, s, by simp [AdvanceDate, h, hc], by simp [hc], by simp, fun _ => rfl⟩

/-- Closed instance of C5 at a concrete minutely state whose boundary 50
still equals the supplied previous boundary: the swap happens and is
reported. -/
theorem claim5_witness :
    ∃ won s2, AdvanceDate ⟨"app_", ".log", 2, .Minutely, 0, 50⟩ ⟨100, 0⟩ ⟨50, 0⟩ = some (won, s2) ∧
      (won = true ↔ (⟨"app_", ".log", 2, .Minutely, 0, 50⟩ : State).nextDate = (⟨50, 0⟩ : GoTime).sec) ∧
      (won = true → s2 = { (⟨"app_", ".log", 2, .Minutely, 0, 50⟩ : State) with nextDate := (⟨120, 0⟩ : GoTime).sec }) ∧
      (won = false → s2 = ⟨"app_", ".log", 2, .Minutely, 0, 50⟩) :=
  claim5_advanceDate_cas ⟨"app_", ".log", 2, .Minutely, 0, 50⟩ ⟨100, 0⟩ ⟨50, 0⟩ ⟨120, 0⟩ (by decide)

/-- C10: in every reachable state the stored boundary is zero exactly
when the kind is `Never`; consequently whenever `shouldRollover` returns
a boundary, `NextDate` at that instant is non-`nil` and the unguarded
dereference inside `AdvanceDate` cannot panic. -/
theorem claim10_boundary_zero_iff_never (c : Config) (s : State) (hr : Reachable c s) :
    (s.nextDate = 0 ↔ s.rotation = .Never) ∧
    (∀ now current, shouldRollover s now = some current →
        (NextDate s.rotation s.off now).isSome ∧ (AdvanceDate s now current).isSome) := by
  rcases reachable_invariant c s hr with ⟨h0, hk⟩ | ⟨hpos, hk⟩
  · refine ⟨⟨fun _ => hk, fun _ => h0⟩, ?_⟩
    intro now current hroll
    simp [shouldRollover, h0] at hroll
  · refine ⟨⟨fun h => absurd h (by omega), fun h => absurd h hk⟩, ?_⟩
    intro now current hroll
    obtain ⟨b, hb, _⟩ := nextDate_some_of_ne s.rotation hk s.off now
    refine ⟨by simp [hb], ?_⟩
    unfold AdvanceDate
    rw [hb]
    by_cases hc : s.nextDate = current.sec <;> simp [hc]

/-- Closed instance of C10 at the freshly constructed minutely state. -/
theorem claim10_witness :
    ((newState cfg0 ⟨100, 0⟩).nextDate = 0 ↔ (newState cfg0 ⟨100, 0⟩).rotation = .Never) ∧
    (∀ now current, shouldRollover (newState cfg0 ⟨100, 0⟩) now = some current →
        (NextDate (newState cfg0 ⟨100, 0⟩).rotation (newState cfg0 ⟨100, 0⟩).off now).isSome ∧
        (AdvanceDate (newState cfg0 ⟨100, 0⟩) now current).isSome) :=
  claim10_boundary_zero_iff_never cfg0 (newState cfg0 ⟨100, 0⟩)
    (Reachable.init ⟨100, 0⟩ (by decide))

/-! Sorting lemmas for the pruning algorithm. -/

/-- Totality of the ascending-by-birth comparison. -/
theorem birthLE_total (a b : String × GoTime) : birthLE a b = true ∨ birthLE b a = true := by
  simp only [birthLE, GoTime.before, Bool.not_eq_true', Bool.or_eq_false_iff,
    Bool.and_eq_false_iff, decide_eq_false_iff_not, not_lt]
  omega

/-- Transitivity of the ascending-by-birth comparison. -/
theorem birthLE_trans (a b c : String × GoTime)
    (h1 : birthLE a b = true) (h2 : birthLE b c = true) : birthLE a c = true := by
  simp only [birthLE, GoTime.before, Bool.not_eq_true', Bool.or_eq_false_iff,
    Bool.and_eq_false_iff, decide_eq_false_iff_not, not_lt] at h1 h2 ⊢
  omega

/-- Insertion grows the length by one. -/
theorem length_insertByBirth (x : String × GoTime) (l : List (String × GoTime)) :
    (insertByBirth x l).length = l.length + 1 := by
  induction l with
  | nil => rfl
  | cons y ys ih =>
    unfold insertByBirth
    split
    · rfl
    · simp [ih]

/-- Membership in an insertion. -/
theorem mem_insertByBirth (x z : String × GoTime) (l : List (String × GoTime)) :
    z ∈ insertByBirth x l ↔ z = x ∨ z ∈ l := by
  induction l with
  | nil => simp [insertByBirth]
  | cons y ys ih =>
    unfold insertByBirth
    split
    · simp
    · simp [ih]
      tauto

/-- Insertion preserves sortedness. -/
theorem pairwise_insertByBirth (x : String × GoTime) (l : List (String × GoTime))
    (h : l.Pairwise fun a b => birthLE a b = true) :
    (insertByBirth x l).Pairwise fun a b => birthLE a b = true := by
  induction l with
  | nil => simp [insertByBirth]
  | cons y ys ih =>
    rcases List.pairwise_cons.mp h with ⟨hy, hys⟩
    unfold insertByBirth
    split
    case isTrue hxy =>
      refine List.pairwise_cons.mpr ⟨?_, h⟩
      intro z hz
      rcases List.mem_cons.mp hz with rfl | hz
      · exact hxy
      · exact birthLE_trans x y z hxy (hy z hz)
    case isFalse hxy =>
      refine List.pairwise_cons.mpr ⟨?_, ih hys⟩
      intro z hz
      rcases (mem_insertByBirth x z ys).mp hz with rfl | hz
      · rcases birthLE_total z y with h' | h'
        · exact absurd h' hxy
        · exact h'
      · exact hy z hz

/-- The sort used by pruning is sorted ascending by birth time. -/
theorem pairwise_sortByBirth (l : List (String × GoTime)) :
    (sortByBirth l).Pairwise fun a b => birthLE a b = true := by
  induction l with
  | nil => simp [sortByBirth]
  | cons x xs ih => exact pairwise_insertByBirth x (sortByBirth xs) ih

/-- The sort preserves length. -/
theorem length_sortByBirth (l : List (String × GoTime)) :
    (sortByBirth l).length = l.length := by
  induction l with
  | nil => rfl
  | cons x xs ih => simp [sortByBirth, length_insertByBirth, ih]

/-- The sort preserves membership. -/
theorem mem_sortByBirth (z : String × GoTime) (l : List (String × GoTime)) :
    z ∈ sortByBirth l ↔ z ∈ l := by
  induction l with
  | nil => simp [sortByBirth]
  | cons x xs ih => simp [sortByBirth, mem_insertByBirth x z, ih]

/-- Every survivor comes from a non-directory entry that matches the
configured filter and has a retrievable birth time. -/
theorem survivors_mem (pre suf : String) (entries : List DirEntry) (p : String × GoTime)
    (h : p ∈ survivors pre suf entries) :
    ∃ e ∈ entries, e.name = p.1 ∧ e.isDir = false ∧
      matchesFilter pre suf e.name = true ∧ e.birth = some p.2 := by
  unfold survivors at h
  rcases List.mem_filterMap.mp h with ⟨e, he, hfe⟩
  refine ⟨e, he, ?_⟩
  by_cases hd : e.isDir = true
  · simp [hd] at hfe
  · by_cases hm : matchesFilter pre suf e.name = true
    · simp only [hd, hm, if_true, if_false, Bool.false_eq_true] at hfe
      rcases hb : e.birth with _ | b
      · rw [hb] at hfe
        simp at hfe
      · rw [hb] at hfe
        simp only [Option.map_some', Option.some.injEq] at hfe
        obtain ⟨hn, hb2⟩ : e.name = p.1 ∧ b = p.2 := by
          rw [← hfe]
          exact ⟨rfl, rfl⟩
        refine ⟨hn, by simpa using hd, hm, ?_⟩
        rw [hb2]
    · simp [hd, hm] at hfe

/-- C1: with retention `maxFiles = R > 0` and at least `R` survivors
(non-directory entries matching the filter with a retrievable birth
time), pruning deletes exactly the first `count − R + 1` entries of the
ascending-by-birth order — leaving `R − 1` — and each deleted entry is at
most as recent as every kept one; with fewer than `R` survivors nothing
is deleted; only surviving entries (matching filter, birth retrievable,
not directories) are ever deleted. -/
theorem claim1_prune_spec (maxFiles : Nat) (pre suf : String) (entries : List DirEntry)
    (hpos : 0 < maxFiles)
    (hcnt : maxFiles ≤ (survivors pre suf entries).length) :
    prune_old_logs maxFiles pre suf entries
        = ((sortByBirth (survivors pre suf entries)).take
            ((survivors pre suf entries).length - maxFiles + 1)).map Prod.fst ∧
    (prune_old_logs maxFiles pre suf entries).length
        = (survivors pre suf entries).length - maxFiles + 1 ∧
    (survivors pre suf entries).length - (prune_old_logs maxFiles pre suf entries).length
        = maxFiles - 1 ∧
    (∀ a ∈ (sortByBirth (survivors pre suf entries)).take
            ((survivors pre suf entries).length - maxFiles + 1),
      ∀ b ∈ (sortByBirth (survivors pre suf entries)).drop
            ((survivors pre suf entries).length - maxFiles + 1),
      birthLE a b = true) ∧
    (∀ nm ∈ prune_old_logs maxFiles pre suf entries, ∃ e ∈ entries,
        e.name = nm ∧ e.isDir = false ∧ matchesFilter pre suf e.name = true ∧ e.birth.isSome) ∧
    (∀ entries2 : List DirEntry, (survivors pre suf entries2).length < maxFiles →
        prune_old_logs maxFiles pre suf entries2 = []) := by
  have h1 : ¬ maxFiles = 0 := by omega
  have h2 : ¬ (survivors pre suf entries).length < maxFiles := by omega
  have hp : prune_old_logs maxFiles pre suf entries
      = ((sortByBirth (survivors pre suf entries)).take
          ((survivors pre suf entries).length - maxFiles + 1)).map Prod.fst := by
    unfold prune_old_logs
    simp only [h1, h2, if_false]
  have hlen : (prune_old_logs maxFiles pre suf entries).length
      = (survivors pre suf entries).length - maxFiles + 1 := by
    rw [hp, List.length_map, List.length_take, length_sortByBirth]
    omega
  refine ⟨hp, hlen, by omega, ?_, ?_, ?_⟩
  · have hs := pairwise_sortByBirth (survivors pre suf entries)
    have hsplit : ((sortByBirth (survivors pre suf entries)).take
            ((survivors pre suf entries).length - maxFiles + 1)
          ++ (sortByBirth (survivors pre suf entries)).drop
            ((survivors pre suf entries).length - maxFiles + 1)).Pairwise
          fun a b => birthLE a b = true := by
      rw [List.take_append_drop]
      exact hs
    exact (List.pairwise_append.mp hsplit).2.2
  · intro nm hnm
    rw [hp] at hnm
    rcases List.mem_map.mp hnm with ⟨q, hq, rfl⟩
    have hq2 : q ∈ sortByBirth (survivors pre suf entries) := List.mem_of_mem_take hq
    have hq3 : q ∈ survivors pre suf entries := (mem_sortByBirth q _).mp hq2
    rcases survivors_mem pre suf entries q hq3 with ⟨e, he, hname, hdir, hmf, hbirth⟩
    exact ⟨e, he, hname, hdir, hmf, by rw [hbirth]; rfl⟩
  · intro entries2 hlt2
    unfold prune_old_logs
    simp only [h1, if_false, hlt2, if_true]

/-- Sample directory listing used by the C1 witness: two matching regular
files with birth times, one non-matching file, one matching directory,
one matching file whose birth time is unavailable. -/
def entries0 : List DirEntry :=
  [⟨"app_1.log", false, some ⟨10, 0⟩⟩, ⟨"app_2.log", false, some ⟨5, 0⟩⟩,
   ⟨"other.txt", false, some ⟨1, 0⟩⟩, ⟨"app_dir.log", true, some ⟨1, 0⟩⟩,
   ⟨"app_3.log", false, none⟩]

/-- Closed instance of C1: with retention 2 and the two survivors of
`entries0`, exactly the older one (`app_2.log`) is deleted. -/
theorem claim1_witness :
    0 < 2 ∧ 2 ≤ (survivors "app_" ".log" entries0).length ∧
    prune_old_logs 2 "app_" ".log" entries0 = ["app_2.log"] ∧
    (prune_old_logs 2 "app_" ".log" entries0).length = 1 := by
  have h := claim1_prune_spec 2 "app_" ".log" entries0 (by decide) (by decide)
  exact ⟨by decide, by decide, h.1.trans (by decide), by decide⟩

/-! Writer-level claims. -/

/-- C6 counterexample: with kind `Never` and both name parts empty,
`joinDate` does NOT omit the formatted date — the Go `switch` falls
through to `return dateStr` — so the filename depends on the supplied
instant's formatted representation. -/
theorem claim6_counterexample :
    joinDate .Never "" "" "20060102_15:04:05" = "20060102_15:04:05" ∧
    joinDate .Never "" "" "a" ≠ joinDate .Never "" "" "b" :=
  ⟨by decide, by decide⟩

/-- C6 amended: for kind `Never` the formatted date is omitted and the
filename is a single stable name independent of the instant whenever at
least one of prefix and suffix is non-empty; when both are empty the
filename is exactly the formatted date (and hence depends on the
instant). -/
theorem claim6_joinDate_never_amended (pre suf d d2 : String) :
    (0 < pre.length ∨ 0 < suf.length →
        joinDate .Never pre suf d = joinDate .Never pre suf d2) ∧
    (pre.length = 0 → suf.length = 0 → joinDate .Never pre suf d = d) := by
  constructor
  · intro h
    unfold joinDate
    by_cases h1 : 0 < pre.length ∧ 0 < suf.length
    · simp only [h1, if_true]
    · by_cases h2 : 0 < pre.length
      · simp only [h1, h2, if_true, if_false]
      · by_cases h3 : 0 < suf.length
        · simp only [h1, h2, h3, if_true, if_false]
        · omega
  · intro hp hs
    unfold joinDate
    simp [hp, hs]

/-- Closed instance of the amended C6: with a non-empty name head the
`Never` filename is the same for two different formatted dates. -/
theorem claim6_witness :
    (0 < "app_".length ∨ 0 < "".length) ∧
    joinDate .Never "app_" "" "a" = joinDate .Never "app_" "" "b" :=
  ⟨Or.inl (by decide), (claim6_joinDate_never_amended "app_" "" "a" "b").1 (Or.inl (by decide))⟩

/-- Concrete writer state used by the C7 counterexample and the C8 and C9
witnesses: minutely rotation, boundary 50 already crossed at instant
100. -/
def cexWriter : Writer := ⟨⟨"a", "", 0, .Minutely, 0, 50⟩, "old"⟩

/-- C7 counterexample: an empty-payload `Write` at an instant past the
stored boundary DOES perform the rotation side effects — the boundary
advances from 50 to 120 and a new handle is installed — refuting the
claim that the boundary value and the open handle are unchanged for
every writer state. -/
theorem claim7_counterexample :
    Write fmt0 cexWriter ⟨100, 0⟩ [] true []
        = some (⟨⟨"a", "", 0, .Minutely, 0, 120⟩, "aD"⟩, [], 0) ∧
    Write fmt0 cexWriter ⟨100, 0⟩ [] true [] ≠ some (cexWriter, [], 0) :=
  ⟨by decide, by decide⟩

/-- C7 amended: an empty-payload `Write` returns byte count 0 with no
error, and it has no side effects whenever the boundary check itself
reports no crossing; in general its rotation and pruning side effects
are exactly those of a `Write` with any payload. -/
theorem claim7_write_empty_amended (fmt : GoTime → String) (w : Writer) (now : GoTime)
    (entries : List DirEntry) (createOk : Bool) :
    (shouldRollover w.st now = none → Write fmt w now entries createOk [] = some (w, [], 0)) ∧
    (∀ p : List UInt8, Write fmt w now entries createOk [] =
        (Write fmt w now entries createOk p).map fun r => (r.1, r.2.1, 0)) := by
  constructor
  · intro h
    unfold Write
    rw [h]
    rfl
  · intro p
    unfold Write
    split
    · rfl
    · split
      · rfl
      · split
        · rfl
        · rfl

/-- Writer state with kind `Never` used by the C7 witness. -/
def neverWriter : Writer := ⟨⟨"f", "", 0, .Never, 0, 0⟩, "f"⟩

/-- Closed instance of the amended C7: with no boundary crossing an
empty write leaves everything unchanged and returns count 0. -/
theorem claim7_witness :
    shouldRollover neverWriter.st ⟨5, 0⟩ = none ∧
    Write fmt0 neverWriter ⟨5, 0⟩ [] true [] = some (neverWriter, [], 0) :=
  ⟨by decide, (claim7_write_empty_amended fmt0 neverWriter ⟨5, 0⟩ [] true).1 (by decide)⟩

/-- C8: when the rotation winner's file creation fails (`createOk =
false`), the previously installed handle stays installed, the write
proceeds against it and returns the underlying result (`p.length`),
the boundary has nevertheless advanced past `now`, and no further
rotation is reported until an instant at or past the new boundary. -/
theorem claim8_create_failure (fmt : GoTime → String) (w : Writer) (now current : GoTime)
    (entries : List DirEntry) (p : List UInt8)
    (hroll : shouldRollover w.st now = some current)
    (hkind : w.st.rotation ≠ .Never) :
    ∃ st2 del, Write fmt w now entries false p = some (⟨st2, w.hfile⟩, del, p.length) ∧
      now.sec < st2.nextDate ∧
      (∀ t2 : GoTime, t2.sec < st2.nextDate → shouldRollover st2 t2 = none) := by
  obtain ⟨hcur, hnz, hle⟩ := shouldRollover_some_elim w.st now current hroll
  obtain ⟨b, hb, hlt⟩ := nextDate_some_of_ne w.st.rotation hkind w.st.off now
  have hcas : w.st.nextDate = current.sec := by rw [hcur]
  refine ⟨{ w.st with nextDate := b.sec },
    (if 0 < w.st.maxFiles then prune_old_logs w.st.maxFiles w.st.namePre w.st.nameSuf entries
     else []),
    ?_, hlt, ?_⟩
  · unfold Write AdvanceDate
    rw [hroll]
    simp only [hb]
    rw [if_pos hcas]
    rfl
  · intro t2 ht2
    have hnd : ({ w.st with nextDate := b.sec } : State).nextDate = b.sec := rfl
    rw [hnd] at ht2
    unfold shouldRollover
    rw [hnd]
    by_cases hz : b.sec = 0
    · rw [if_pos hz]
    · rw [if_neg hz, if_neg (by omega)]

/-- Closed instance of C8: at the crossed boundary 50 with file creation
failing, the old handle stays installed, the payload is written against
it, and the boundary has advanced to 120. -/
theorem claim8_witness :
    shouldRollover cexWriter.st ⟨100, 0⟩ = some ⟨50, 0⟩ ∧
    cexWriter.st.rotation ≠ RotationKind.Never ∧
    (∃ st2 del, Write fmt0 cexWriter ⟨100, 0⟩ [] false [7]
          = some (⟨st2, cexWriter.hfile⟩, del, [(7 : UInt8)].length) ∧
        (⟨100, 0⟩ : GoTime).sec < st2.nextDate ∧
        (∀ t2 : GoTime, t2.sec < st2.nextDate → shouldRollover st2 t2 = none)) :=
  ⟨by decide, by decide,
    claim8_create_failure fmt0 cexWriter ⟨100, 0⟩ ⟨50, 0⟩ [] [7] (by decide) (by decide)⟩

/-- The refresh only swaps the handle: the shared state is untouched. -/
theorem refreshFile_st (fmt : GoTime → String) (w : Writer) (now : GoTime)
    (entries : List DirEntry) (createOk : Bool) :
    (refreshFile fmt w now entries createOk).1.st = w.st := by
  cases createOk
  · rfl
  · rfl

/-- The refresh installs either the old handle (creation failed) or the
handle named for `now` (creation succeeded). -/
theorem refreshFile_hfile (fmt : GoTime → String) (w : Writer) (now : GoTime)
    (entries : List DirEntry) (createOk : Bool) :
    (refreshFile fmt w now entries createOk).1.hfile = w.hfile ∨
    (refreshFile fmt w now entries createOk).1.hfile
      = joinDate w.st.rotation w.st.namePre w.st.nameSuf (fmt now) := by
  cases createOk
  · left
    rfl
  · right
    rfl

/-- Once the stored boundary no longer equals the observed one, every
remaining caller loses the compare-and-swap and performs no refresh. -/
theorem runRace_no_winner (fmt : GoTime → String) (current : GoTime)
    (entries : List DirEntry) (createOk : Bool) (nows : List GoTime) (w : Writer)
    (hkind : w.st.rotation ≠ .Never) (hne : w.st.nextDate ≠ current.sec) :
    runRace fmt current entries createOk w nows = some (w, 0) := by
  induction nows with
  | nil => rfl
  | cons now rest ih =>
    obtain ⟨b, hb, _⟩ := nextDate_some_of_ne w.st.rotation hkind w.st.off now
    unfold runRace AdvanceDate
    simp only [hb]
    rw [if_neg hne]
    have hw2 : ({ w with st := w.st } : Writer) = w := rfl
    simp only [hw2, ih]
    rfl

/-- C9: across arbitrarily many callers that observed the same crossed
boundary `current` (in any interleaving order, the compare-and-swap
being the linearization point), exactly one performs the refresh (file
creation and pruning); the final installed handle is a complete value —
either the original handle or the one the winner created. -/
theorem claim9_exactly_one_winner (fmt : GoTime → String) (current : GoTime)
    (entries : List DirEntry) (createOk : Bool) (w : Writer) (now0 : GoTime)
    (rest : List GoTime)
    (hkind : w.st.rotation ≠ .Never)
    (heq : w.st.nextDate = current.sec)
    (hobs : current.sec ≤ now0.sec) :
    ∃ wf, runRace fmt current entries createOk w (now0 :: rest) = some (wf, 1) ∧
      wf.st.rotation = w.st.rotation ∧
      current.sec < wf.st.nextDate ∧
      (wf.hfile = w.hfile ∨
        wf.hfile = joinDate w.st.rotation w.st.namePre w.st.nameSuf (fmt now0)) := by
  obtain ⟨b, hb, hlt⟩ := nextDate_some_of_ne w.st.rotation hkind w.st.off now0
  have hbig : current.sec < b.sec := by omega
  have hrest := runRace_no_winner fmt current entries createOk rest
      ((refreshFile fmt { w with st := { w.st with nextDate := b.sec } } now0 entries createOk).1)
      (by rw [refreshFile_st]; exact hkind)
      (by rw [refreshFile_st]; show b.sec ≠ current.sec; omega)
  refine ⟨(refreshFile fmt { w with st := { w.st with nextDate := b.sec } } now0 entries createOk).1,
    ?_, ?_, ?_, ?_⟩
  · unfold runRace AdvanceDate
    simp only [hb]
    rw [if_pos heq]
    simp only [hrest]
    rfl
  · rw [refreshFile_st]
  · rw [refreshFile_st]
    exact hbig
  · rcases refreshFile_hfile fmt { w with st := { w.st with nextDate := b.sec } }
        now0 entries createOk with h | h
    · left
      exact h
    · right
      exact h

/-- Closed instance of C9: two callers race over boundary 50; exactly
one refresh happens and the winner's new handle is installed. -/
theorem claim9_witness :
    cexWriter.st.rotation ≠ RotationKind.Never ∧
    cexWriter.st.nextDate = (⟨50, 0⟩ : GoTime).sec ∧
    (⟨50, 0⟩ : GoTime).sec ≤ (⟨100, 0⟩ : GoTime).sec ∧
    (∃ wf, runRace fmt0 ⟨50, 0⟩ [] true cexWriter [⟨100, 0⟩, ⟨101, 0⟩] = some (wf, 1) ∧
        wf.st.rotation = cexWriter.st.rotation ∧
        (⟨50, 0⟩ : GoTime).sec < wf.st.nextDate ∧
        (wf.hfile = cexWriter.hfile ∨
          wf.hfile = joinDate cexWriter.st.rotation cexWriter.st.namePre
            cexWriter.st.nameSuf (fmt0 ⟨100, 0⟩))) :=
  ⟨by decide, by decide, by decide,
    claim9_exactly_one_winner fmt0 ⟨50, 0⟩ [] true cexWriter ⟨100, 0⟩ [⟨101, 0⟩]
      (by decide) (by decide) (by decide)⟩

end Rolling
